import Mathlib

/-!
Verification development for the HTML-transcript-to-text converter
(`Html_To_Text/html_to_text.py`).

The Python source is shallowly embedded as total Lean functions over
`List Char` / `String`:

* `tsMatchAt` / `tsSubAux` model the left-to-right non-overlapping
  substitution `_TIMESTAMP_RE.sub(" ", text)` for the regex
  `\b\d{1,2}:\d{2}(?::\d{2})?\b` (greedy alternatives tried in the same
  order as the backtracking regex engine; character classes are modelled
  over their ASCII behaviour).
* `collapseAux` models `re.sub(r"\s+", " ", text)`.
* `nlPassAux` models `re.sub(r" ?\n ?", "\n", text)`.
* `pyStrip` models Python's `str.strip()` (ASCII whitespace).
* `handle_starttag`, `handle_startendtag`, `handle_endtag`, `handle_data`,
  `_maybe_add_newline`, `get_text` model the methods of
  `TranscriptHTMLParser`; the chunk list models `self._chunks`.
* `tokenizeAux` models the event stream produced by the tolerant stdlib
  HTML tokenizer that drives those handlers (see its doc comment).
-/

namespace HtmlToText

/-- ASCII whitespace, the characters matched by `\s` / stripped by
`str.strip()` for ASCII input: space, tab, newline, carriage return,
vertical tab, form feed. -/
def isSpaceChar (c : Char) : Bool :=
  c = ' ' || c = '\t' || c = '\n' || c = '\r' || c = '\x0b' || c = '\x0c'

/-- ASCII model of the regex word-character class `\w`: letters, digits,
underscore. -/
def isWordC (c : Char) : Bool :=
  c.isAlphanum || c = '_'

/-- Decimal digit, the class `\d` (ASCII). -/
def isDigitC (c : Char) : Bool :=
  c.isDigit

/-- The character at index `i` is a digit (false past the end). -/
def isDigitAt (l : List Char) (i : Nat) : Bool :=
  match l[i]? with
  | some c => isDigitC c
  | none => false

/-- The character at index `i` is a colon (false past the end). -/
def isColonAt (l : List Char) (i : Nat) : Bool :=
  match l[i]? with
  | some c => c = ':'
  | none => false

/-- A `\b` word boundary holds between index `i - 1` (a word character
inside the candidate match) and index `i`: the character at `i` is absent
or is not a word character. -/
def bdryAt (l : List Char) (i : Nat) : Bool :=
  match l[i]? with
  | some c => !isWordC c
  | none => true

/-- Attempt to match `\b\d{1,2}:\d{2}(?::\d{2})?\b` (`_TIMESTAMP_RE`)
at the start of `l`, where `pw` records whether the character preceding
`l` in the full string is a word character (so the leading `\b` fails
when `pw = true`).  Returns the length of the match, following the
regex engine's greedy order: two-digit hour first, then the optional
seconds group, falling back to the shorter alternatives exactly as the
backtracking engine does. -/
def tsMatchAt (pw : Bool) (l : List Char) : Option Nat :=
  if pw then none
  else if isDigitAt l 0 && isDigitAt l 1 && isColonAt l 2
          && isDigitAt l 3 && isDigitAt l 4 then
    if isColonAt l 5 && isDigitAt l 6 && isDigitAt l 7 && bdryAt l 8 then some 8
    else if bdryAt l 5 then some 5 else none
  else if isDigitAt l 0 && isColonAt l 1 && isDigitAt l 2 && isDigitAt l 3 then
    if isColonAt l 4 && isDigitAt l 5 && isDigitAt l 6 && bdryAt l 7 then some 7
    else if bdryAt l 4 then some 4 else none
  else none

/-- One left-to-right pass of `_TIMESTAMP_RE.sub(" ", ...)`: at each
position try a match; on success emit a single `' '` and resume after the
match (the last matched character is a digit, so the word-context flag
becomes `true`); on failure copy the character.  `fuel` bounds the
recursion; `fuel = l.length` always suffices because every step consumes
at least one character. -/
def tsSubAux : Nat → Bool → List Char → List Char
  | 0, _, l => l
  | _ + 1, _, [] => []
  | fuel + 1, pw, c :: rest =>
    match tsMatchAt pw (c :: rest) with
    | some n => ' ' :: tsSubAux fuel true (List.drop (n - 1) rest)
    | none => c :: tsSubAux fuel (isWordC c) rest

/-- `_TIMESTAMP_RE.sub(" ", text)` on a character list (the string start
is a non-word context, so the scan begins with `pw = false`). -/
def timestampSub (l : List Char) : List Char :=
  tsSubAux l.length false l

/-- `_TIMESTAMP_RE.sub(" ", text)` on strings. -/
def timestampSubStr (s : String) : String :=
  String.mk (timestampSub s.data)

/-- `re.sub(r"\s+", " ", text)`: each maximal run of whitespace becomes
one space.  `inRun` is true while inside a run whose first character has
already been replaced. -/
def collapseAux : Bool → List Char → List Char
  | _, [] => []
  | inRun, c :: rest =>
    if isSpaceChar c then
      if inRun then collapseAux true rest else ' ' :: collapseAux true rest
    else c :: collapseAux false rest

/-- `re.sub(r"\s+", " ", text)` starting outside any whitespace run. -/
def collapseWs (l : List Char) : List Char :=
  collapseAux false l

/-- `re.sub(r" ?\n ?", "\n", text)`: left-to-right replacement of an
optional space, a newline, an optional space by a newline (the optional
spaces are greedy, as in the regex). -/
def nlPassAux : List Char → List Char
  | [] => []
  | c1 :: rest1 =>
    if c1 = '\n' then
      match rest1 with
      | c2 :: rest2 =>
        if c2 = ' ' then '\n' :: nlPassAux rest2 else '\n' :: nlPassAux (c2 :: rest2)
      | [] => ['\n']
    else if c1 = ' ' then
      match rest1 with
      | c2 :: rest2 =>
        if c2 = '\n' then
          match rest2 with
          | c3 :: rest3 =>
            if c3 = ' ' then '\n' :: nlPassAux rest3 else '\n' :: nlPassAux (c3 :: rest3)
          | [] => ['\n']
        else c1 :: nlPassAux (c2 :: rest2)
      | [] => [' ']
    else c1 :: nlPassAux rest1

/-- Python `str.strip()` (ASCII): drop whitespace from both ends. -/
def pyStrip (l : List Char) : List Char :=
  (((l.dropWhile isSpaceChar).reverse.dropWhile isSpaceChar).reverse)

/-- ASCII lower-casing of one character, as applied by the tokenizer to
tag names before they reach the handlers. -/
def lowerChar (c : Char) : Char :=
  if 'A' ≤ c ∧ c ≤ 'Z' then Char.ofNat (c.toNat + 32) else c

/-- Lower-case a tag name. -/
def lowerName (l : List Char) : List Char :=
  l.map lowerChar

/-- The markup events delivered by the tokenizer to the
`TranscriptHTMLParser` handlers: start tag, end tag, self-closing tag
(each with the raw tag name), and a text-data event. -/
inductive HtmlEvent where
  | startTag (name : List Char)
  | endTag (name : List Char)
  | startEndTag (name : List Char)
  | textData (data : List Char)
deriving DecidableEq

/-- `TranscriptHTMLParser._BLOCK_TAGS`, the fixed set of block-level tag
names. -/
def _BLOCK_TAGS : List String :=
  ["address", "article", "aside", "blockquote", "br", "dd", "div", "dl",
   "dt", "fieldset", "figcaption", "figure", "footer", "form", "h1", "h2",
   "h3", "h4", "h5", "h6", "header", "hgroup", "hr", "li", "main", "nav",
   "ol", "p", "pre", "section", "table", "td", "th", "tr", "ul"]

/-- `_BLOCK_TAGS` as character lists. -/
def blockTagsL : List (List Char) :=
  _BLOCK_TAGS.map String.data

/-- The break marker chunk `"\n"`. -/
def NL : List Char := ['\n']

/-- `TranscriptHTMLParser._maybe_add_newline`: append a break marker only
when the chunk list is non-empty and its last element is not already a
break marker. -/
def _maybe_add_newline (cs : List (List Char)) : List (List Char) :=
  match cs.getLast? with
  | none => cs
  | some last => if last = NL then cs else cs ++ [NL]

/-- `TranscriptHTMLParser.handle_starttag`. -/
def handle_starttag (cs : List (List Char)) (tag : List Char) : List (List Char) :=
  if tag ∈ blockTagsL then _maybe_add_newline cs else cs

/-- `TranscriptHTMLParser.handle_startendtag`. -/
def handle_startendtag (cs : List (List Char)) (tag : List Char) : List (List Char) :=
  if tag ∈ blockTagsL then _maybe_add_newline cs else cs

/-- `TranscriptHTMLParser.handle_endtag`. -/
def handle_endtag (cs : List (List Char)) (tag : List Char) : List (List Char) :=
  if tag ∈ blockTagsL then _maybe_add_newline cs else cs

/-- `TranscriptHTMLParser.handle_data`: strip the data; append it as a
chunk when non-empty. -/
def handle_data (cs : List (List Char)) (data : List Char) : List (List Char) :=
  let text := pyStrip data
  if text = [] then cs else cs ++ [text]

/-- Deliver one tokenizer event to the parser: the tokenizer lower-cases
tag names before invoking the tag handlers (stdlib behaviour), text data
goes to `handle_data` unchanged. -/
def deliver (cs : List (List Char)) (ev : HtmlEvent) : List (List Char) :=
  match ev with
  | .startTag name => handle_starttag cs (lowerName name)
  | .endTag name => handle_endtag cs (lowerName name)
  | .startEndTag name => handle_startendtag cs (lowerName name)
  | .textData data => handle_data cs data

/-- Feed a whole event stream to a fresh parser. -/
def feedEvents (evs : List HtmlEvent) : List (List Char) :=
  evs.foldl deliver []

/-- Named character references recognised by the model of the stdlib
entity decoder. -/
def namedEntity (name : List Char) : Option Char :=
  if name = "amp".data then some '&'
  else if name = "lt".data then some '<'
  else if name = "gt".data then some '>'
  else if name = "quot".data then some '"'
  else if name = "apos".data then some '\''
  else none

/-- Modelled from the spec: the stdlib tokenizer is constructed with
default character-reference conversion, so named references appearing in
text data are decoded before the data event is delivered.  Unknown
references are left literal.  `fuel = l.length` suffices. -/
def decodeEntities : Nat → List Char → List Char
  | 0, l => l
  | _ + 1, [] => []
  | fuel + 1, c :: rest =>
    if c = '&' then
      let name := rest.takeWhile (fun x => x.isAlpha)
      let r2 := rest.dropWhile (fun x => x.isAlpha)
      match r2.head? with
      | some ';' =>
        match namedEntity name with
        | some ch => ch :: decodeEntities fuel r2.tail
        | none => '&' :: decodeEntities fuel rest
      | _ => '&' :: decodeEntities fuel rest
    else c :: decodeEntities fuel rest

/-- A tag name starts with a letter. -/
def isNameStart (c : Char) : Bool :=
  c.isAlpha

/-- Read a (tolerant) tag name: everything up to whitespace, `/` or `>`. -/
def readName : List Char → List Char × List Char
  | [] => ([], [])
  | c :: rest =>
    if isSpaceChar c || c = '/' || c = '>' then ([], c :: rest)
    else (c :: (readName rest).1, (readName rest).2)

/-- Modelled from the spec: the event stream of the tolerant stdlib HTML
tokenizer driving the handlers.  Markup events are produced in document
order: start tags, self-closing tags (tag text ending in `/>`), end
tags, and one text-data event per maximal inter-tag text run with
character references decoded; comments, processing instructions and
doctype declarations (`<!`/`<?`) contribute nothing; a stray `<` not
opening a tag is treated as text; an unterminated tag at end of input is
dropped (best-effort tolerance).  `fuel` bounds the recursion and
`none` is returned only when it runs out; `fuel = l.length + 1`
suffices. -/
def tokenizeAux : Nat → List Char → Option (List HtmlEvent)
  | 0, _ => none
  | _ + 1, [] => some []
  | fuel + 1, c :: rest =>
    if c = '<' then
      match rest with
      | [] => some [HtmlEvent.textData ['<']]
      | d :: rest' =>
        if d = '/' then
          let (name, r1) := readName rest'
          match r1.dropWhile (fun x => !(x = '>')) with
          | [] => some []
          | _ :: r3 =>
            (tokenizeAux fuel r3).map (fun evs => HtmlEvent.endTag name :: evs)
        else if isNameStart d then
          let (name, r1) := readName (d :: rest')
          let inTag := r1.takeWhile (fun x => !(x = '>'))
          match r1.dropWhile (fun x => !(x = '>')) with
          | [] => some []
          | _ :: r3 =>
            let ev := if inTag.getLast? = some '/' then HtmlEvent.startEndTag name
                      else HtmlEvent.startTag name
            (tokenizeAux fuel r3).map (fun evs => ev :: evs)
        else if d = '!' || d = '?' then
          match rest'.dropWhile (fun x => !(x = '>')) with
          | [] => some []
          | _ :: r3 => tokenizeAux fuel r3
        else
          (tokenizeAux fuel (d :: rest')).map
            (fun evs => HtmlEvent.textData ['<'] :: evs)
    else
      let run := (c :: rest).takeWhile (fun x => !(x = '<'))
      let r2 := (c :: rest).dropWhile (fun x => !(x = '<'))
      (tokenizeAux fuel r2).map
        (fun evs => HtmlEvent.textData (decodeEntities run.length run) :: evs)

/-- Tokenize a whole document with sufficient fuel. -/
def tokenize (l : List Char) : List HtmlEvent :=
  (tokenizeAux (l.length + 1) l).getD []

/-- The parser's chunk list after `parser.feed(html)` has consumed the
whole document. -/
def scanChunks (html : String) : List (List Char) :=
  feedEvents (tokenize html.data)

/-- `TranscriptHTMLParser.get_text` after feeding `html`: the scanner's
intermediate output, `"".flatten(self._chunks)`. -/
def get_text (html : String) : String :=
  String.mk (scanChunks html).flatten

/-- The normalizer, lines 105-109 of the source: timestamp removal,
whitespace collapsing, the optional-space/newline/optional-space pass,
final strip. -/
def normalizeText (l : List Char) : List Char :=
  pyStrip (nlPassAux (collapseWs (timestampSub l)))

/-- `strip_html_transcript`: scan, then normalize. -/
def strip_html_transcript (html : String) : String :=
  String.mk (normalizeText (scanChunks html).flatten)

/-- The conversion with the third normalization pass
(`re.sub(r" ?\n ?", "\n", ...)`) omitted; the comparison point for the
refinement claim that the pass is a no-op. -/
def strip_html_transcript_noReconcile (html : String) : String :=
  String.mk (pyStrip (collapseWs (timestampSub (scanChunks html).flatten)))

/-- No two adjacent chunks are both break markers. -/
def noAdjNl : List (List Char) → Bool
  | a :: b :: rest => !(a = NL && b = NL) && noAdjNl (b :: rest)
  | _ => true

/-- The character list contains two consecutive newline characters. -/
def hasNlNl : List Char → Bool
  | c1 :: c2 :: rest => (c1 = '\n' && c2 = '\n') || hasNlNl (c2 :: rest)
  | _ => false

/-- No position of the list carries a timestamp match, given the word
flag `pw` for the character preceding the list. -/
def noTs (pw : Bool) : List Char → Bool
  | [] => true
  | c :: rest => (tsMatchAt pw (c :: rest)).isNone && noTs (isWordC c) rest

/-! ### Basic facts about the timestamp matcher -/

theorem tsMatchAt_true (l : List Char) : tsMatchAt true l = none := by
  simp [tsMatchAt]

theorem tsMatchAt_not_digit {l : List Char} (pw : Bool)
    (h : isDigitAt l 0 = false) : tsMatchAt pw l = none := by
  simp [tsMatchAt, h]

theorem digit_isWord {c : Char} (h : isDigitC c = true) : isWordC c = true := by
  simp only [isDigitC] at h
  simp only [isWordC, Char.isAlphanum, Bool.or_eq_true]
  exact Or.inl (Or.inr h)

theorem tsMatchAt_pw {pw : Bool} {l : List Char} {n : Nat}
    (h : tsMatchAt pw l = some n) : pw = false := by
  cases pw with
  | false => rfl
  | true => rw [tsMatchAt_true] at h; exact absurd h (by simp)

theorem tsMatchAt_n_val {pw : Bool} {l : List Char} {n : Nat}
    (h : tsMatchAt pw l = some n) : n = 4 ∨ n = 5 ∨ n = 7 ∨ n = 8 := by
  unfold tsMatchAt at h
  split_ifs at h <;> simp_all

theorem tsMatchAt_bdry {pw : Bool} {l : List Char} {n : Nat}
    (h : tsMatchAt pw l = some n) : bdryAt l n = true := by
  unfold tsMatchAt at h
  split_ifs at h <;> simp_all

theorem tsMatchAt_last_digit {pw : Bool} {l : List Char} {n : Nat}
    (h : tsMatchAt pw l = some n) : isDigitAt l (n - 1) = true := by
  unfold tsMatchAt at h
  split_ifs at h <;> simp at h <;> subst h <;> simp_all

theorem tsMatchAt_head_digit {pw : Bool} {l : List Char} {n : Nat}
    (h : tsMatchAt pw l = some n) : isDigitAt l 0 = true := by
  unfold tsMatchAt at h
  split_ifs at h <;> simp_all

theorem tsMatchAt_inner {pw : Bool} {l : List Char} {n : Nat}
    (h : tsMatchAt pw l = some n) :
    ∀ i, i < n → (isDigitAt l i || isColonAt l i) = true := by
  unfold tsMatchAt at h
  split_ifs at h <;> simp at h <;> subst h <;> intro i hi <;>
    interval_cases i <;> simp_all

/-- The matcher only examines the first nine characters. -/
theorem tsMatchAt_congr {l l' : List Char} (pw : Bool)
    (h : ∀ i, i ≤ 8 → l[i]? = l'[i]?) : tsMatchAt pw l = tsMatchAt pw l' := by
  have hd : ∀ i, i ≤ 8 → isDigitAt l i = isDigitAt l' i := by
    intro i hi; unfold isDigitAt; rw [h i hi]
  have hc : ∀ i, i ≤ 8 → isColonAt l i = isColonAt l' i := by
    intro i hi; unfold isColonAt; rw [h i hi]
  have hb : ∀ i, i ≤ 8 → bdryAt l i = bdryAt l' i := by
    intro i hi; unfold bdryAt; rw [h i hi]
  unfold tsMatchAt
  rw [hd 0 (by omega), hd 1 (by omega), hd 2 (by omega), hd 3 (by omega),
    hd 4 (by omega), hd 5 (by omega), hd 6 (by omega), hd 7 (by omega),
    hc 1 (by omega), hc 2 (by omega), hc 4 (by omega), hc 5 (by omega),
    hb 4 (by omega), hb 5 (by omega), hb 7 (by omega), hb 8 (by omega)]

/-! ### The collapsed string has no newline, so the third pass is inert -/

theorem collapseAux_no_nl (b : Bool) (l : List Char) : '\n' ∉ collapseAux b l := by
  induction l generalizing b with
  | nil => simp [collapseAux]
  | cons c rest ih =>
    unfold collapseAux
    split_ifs with h1 h2
    · exact ih true
    · intro hm
      rcases List.mem_cons.mp hm with he | hm'
      · exact absurd he.symm (by decide)
      · exact ih true hm'
    · intro hm
      rcases List.mem_cons.mp hm with he | hm'
      · rw [← he] at h1; exact h1 (by decide)
      · exact ih false hm'

theorem collapseWs_no_nl (l : List Char) : '\n' ∉ collapseWs l :=
  collapseAux_no_nl false l

theorem nlPassAux_nil : nlPassAux [] = [] := by
  rw [nlPassAux.eq_def]

theorem nlPassAux_id {l : List Char} (h : '\n' ∉ l) : nlPassAux l = l := by
  induction l with
  | nil => rfl
  | cons c1 rest ih =>
    have hc1 : ¬(c1 = '\n') := fun he => h (by simp [he])
    have hrest : '\n' ∉ rest := fun hm => h (List.mem_cons_of_mem _ hm)
    rw [nlPassAux.eq_def]
    cases rest with
    | nil =>
      by_cases hsp : c1 = ' ' <;> simp [hc1, hsp, nlPassAux_nil]
    | cons c2 rest2 =>
      have hc2 : ¬(c2 = '\n') := fun he => hrest (by simp [he])
      by_cases hsp : c1 = ' ' <;> simp [hc1, hsp, hc2, ih hrest]

theorem pyStrip_subset {x : Char} {l : List Char} (h : x ∈ pyStrip l) : x ∈ l := by
  unfold pyStrip at h
  rw [List.mem_reverse] at h
  have h2 := List.dropWhile_subset _ h
  rw [List.mem_reverse] at h2
  exact List.dropWhile_subset _ h2

/-- Claim C1: the full conversion equals the conversion with the third
normalization pass omitted, and the final output of
`strip_html_transcript` never contains a newline: after whitespace
collapsing the string has no newline character, so the
space-newline-space pass is a no-op. -/
theorem claim_C1_reconcile_noop (html : String) :
    strip_html_transcript html = strip_html_transcript_noReconcile html ∧
    '\n' ∉ (strip_html_transcript html).data := by
  have hnl : '\n' ∉ collapseWs (timestampSub (scanChunks html).flatten) :=
    collapseWs_no_nl _
  have hid := nlPassAux_id hnl
  refine ⟨?_, ?_⟩
  · unfold strip_html_transcript strip_html_transcript_noReconcile normalizeText
    rw [hid]
  · unfold strip_html_transcript normalizeText
    intro hm
    rw [hid] at hm
    exact hnl (pyStrip_subset hm)

/-! ### The chunk list never holds two adjacent break markers -/

theorem pyStrip_ne_NL (d : List Char) : pyStrip d ≠ NL := by
  intro he
  unfold pyStrip at he
  have hrev : ((d.dropWhile isSpaceChar).reverse.dropWhile isSpaceChar) = ['\n'] := by
    have h2 := congrArg List.reverse he
    simpa [NL] using h2
  have h3 := List.head?_dropWhile_not isSpaceChar (d.dropWhile isSpaceChar).reverse
  rw [hrev] at h3
  simp at h3
  exact absurd h3 (by decide)

theorem not_both_NL {a x : List Char} (h : ¬(a = NL ∧ x = NL)) :
    (a = NL && x = NL) = false := by
  by_cases ha : a = NL
  · by_cases hb : x = NL
    · exact absurd ⟨ha, hb⟩ h
    · simp [hb]
  · simp [ha]

theorem noAdjNl_snoc {cs : List (List Char)} {x : List Char}
    (h : noAdjNl cs = true) (hx : cs.getLast? ≠ some NL ∨ x ≠ NL) :
    noAdjNl (cs ++ [x]) = true := by
  induction cs with
  | nil => rfl
  | cons a cs' ih =>
    cases cs' with
    | nil =>
      simp only [List.getLast?_singleton] at hx
      have hax : ¬(a = NL ∧ x = NL) := by
        rcases hx with h1 | h1
        · exact fun hc => h1 (by rw [hc.1])
        · exact fun hc => h1 hc.2
      simp [noAdjNl, not_both_NL hax]
    | cons b cs'' =>
      have hsplit : noAdjNl (b :: cs'') = true := by
        simp only [noAdjNl, Bool.and_eq_true] at h
        exact h.2
      have h1 : ¬(a = NL ∧ b = NL) := by
        intro hc
        simp only [noAdjNl, Bool.and_eq_true] at h
        have h2 := h.1
        rw [hc.1, hc.2] at h2
        simp at h2
      have hlast : (a :: b :: cs'').getLast? = (b :: cs'').getLast? :=
        List.getLast?_cons_cons ..
      rw [hlast] at hx
      have hrec := ih hsplit hx
      simp only [List.cons_append, noAdjNl, Bool.and_eq_true] at hrec ⊢
      exact ⟨by simp [not_both_NL h1], hrec⟩

theorem noAdjNl_maybe_add_newline {cs : List (List Char)}
    (h : noAdjNl cs = true) : noAdjNl (_maybe_add_newline cs) = true := by
  unfold _maybe_add_newline
  cases hl : cs.getLast? with
  | none => exact h
  | some last =>
    by_cases he : last = NL
    · simp [he, h]
    · simp only [if_neg he]
      exact noAdjNl_snoc h (Or.inl (by rw [hl]; simp [he]))

theorem noAdjNl_deliver {cs : List (List Char)} (ev : HtmlEvent)
    (h : noAdjNl cs = true) : noAdjNl (deliver cs ev) = true := by
  cases ev with
  | startTag name =>
    simp only [deliver, handle_starttag]
    split_ifs <;> [exact noAdjNl_maybe_add_newline h; exact h]
  | endTag name =>
    simp only [deliver, handle_endtag]
    split_ifs <;> [exact noAdjNl_maybe_add_newline h; exact h]
  | startEndTag name =>
    simp only [deliver, handle_startendtag]
    split_ifs <;> [exact noAdjNl_maybe_add_newline h; exact h]
  | textData data =>
    simp only [deliver, handle_data]
    split_ifs with ht
    · exact h
    · exact noAdjNl_snoc h (Or.inr (pyStrip_ne_NL data))

theorem noAdjNl_foldl (evs : List HtmlEvent) :
    ∀ cs, noAdjNl cs = true → noAdjNl (evs.foldl deliver cs) = true := by
  induction evs with
  | nil => exact fun cs h => h
  | cons ev evs' ih =>
    intro cs h
    exact ih _ (noAdjNl_deliver ev h)

/-- Claim C3, counterexample: the scanner's intermediate output can
contain two consecutive newline characters when a text chunk has internal
blank lines — `handle_data` only strips the ends of the data.  On
`"<p>a\n\nb</p>"` the concatenation contains `"\n\n"`. -/
theorem claim_C3_counterexample :
    hasNlNl (get_text "<p>a\n\nb</p>").data = true := by decide

/-- Claim C3, amended: for every event stream (hence for every input
HTML string and every point during scanning) the chunk sequence never
contains two adjacent break-marker chunks: a newline chunk is appended
only when the sequence is non-empty and its last element is not a newline
chunk.  The concatenation, however, may still contain consecutive newline
characters inside a single text chunk. -/
theorem claim_C3_no_adjacent_breaks :
    (∀ evs : List HtmlEvent, noAdjNl (feedEvents evs) = true) ∧
    (∀ html : String, noAdjNl (scanChunks html) = true) :=
  ⟨fun evs => noAdjNl_foldl evs [] rfl,
   fun html => noAdjNl_foldl (tokenize html.data) [] rfl⟩

/-! ### The tokenizer fuel bound: length + 1 always suffices -/

theorem readName_length (l : List Char) : (readName l).2.length ≤ l.length := by
  induction l with
  | nil => simp [readName]
  | cons c rest ih =>
    unfold readName
    split_ifs with h
    · simp
    · simpa using Nat.le_succ_of_le ih

theorem length_dropWhile_le (p : Char → Bool) (l : List Char) :
    (l.dropWhile p).length ≤ l.length :=
  (List.dropWhile_sublist p).length_le

theorem tokenizeAux_isSome (fuel : Nat) : ∀ l : List Char, l.length < fuel →
    (tokenizeAux fuel l).isSome = true := by
  induction fuel with
  | zero => intro l hl; omega
  | succ f ih =>
    intro l hl
    cases l with
    | nil => rfl
    | cons c rest =>
      simp only [List.length_cons] at hl
      rw [tokenizeAux.eq_def]
      simp only []
      by_cases hc : c = '<'
      · rw [if_pos hc]
        cases rest with
        | nil => rfl
        | cons d rest' =>
          simp only [List.length_cons] at hl
          simp only []
          by_cases hd : d = '/'
          · rw [if_pos hd]
            have h1 : ((readName rest').2.dropWhile (fun x => !(x = '>'))).length
                ≤ rest'.length :=
              le_trans (length_dropWhile_le _ _) (readName_length rest')
            cases hdw : (readName rest').2.dropWhile (fun x => !(x = '>')) with
            | nil => rfl
            | cons g r3 =>
              rw [hdw] at h1
              simp only [List.length_cons] at h1
              simp only [Option.isSome_map']
              exact ih r3 (by omega)
          · rw [if_neg hd]
            by_cases hn : isNameStart d = true
            · rw [if_pos hn]
              have h1 : ((readName (d :: rest')).2.dropWhile (fun x => !(x = '>'))).length
                  ≤ rest'.length + 1 :=
                le_trans (length_dropWhile_le _ _) (readName_length (d :: rest'))
              cases hdw : (readName (d :: rest')).2.dropWhile (fun x => !(x = '>')) with
              | nil => rfl
              | cons g r3 =>
                rw [hdw] at h1
                simp only [List.length_cons] at h1
                simp only [Option.isSome_map']
                exact ih r3 (by omega)
            · rw [if_neg hn]
              by_cases hbang : (d = '!' || d = '?') = true
              · rw [if_pos hbang]
                have h1 : (rest'.dropWhile (fun x => !(x = '>'))).length ≤ rest'.length :=
                  length_dropWhile_le _ _
                cases hdw : rest'.dropWhile (fun x => !(x = '>')) with
                | nil => rfl
                | cons g r3 =>
                  rw [hdw] at h1
                  simp only [List.length_cons] at h1
                  exact ih r3 (by omega)
              · rw [if_neg hbang]
                simp only [Option.isSome_map']
                exact ih (d :: rest') (by simp only [List.length_cons]; omega)
      · rw [if_neg hc]
        simp only [Option.isSome_map']
        have hdrop : (c :: rest).dropWhile (fun x => !(x = '<')) = rest.dropWhile (fun x => !(x = '<')) := by
          rw [List.dropWhile_cons_of_pos]
          simp [hc]
        rw [hdrop]
        have h1 : (rest.dropWhile (fun x => !(x = '<'))).length ≤ rest.length :=
          length_dropWhile_le _ _
        exact ih _ (by omega)

/-- Claim C2: `strip_html_transcript` is total: the only fuelled step,
the tokenizer, always succeeds with fuel `length + 1` (every event
consumes at least one character), and the result then flows through the
total handler fold and the total normalization passes. -/
theorem claim_C2_total (html : String) :
    ∃ evs, tokenizeAux (html.data.length + 1) html.data = some evs ∧
      strip_html_transcript html =
        String.mk (pyStrip (nlPassAux (collapseWs (timestampSub
          (feedEvents evs).flatten)))) := by
  obtain ⟨evs, hevs⟩ := Option.isSome_iff_exists.mp
    (tokenizeAux_isSome (html.data.length + 1) html.data (Nat.lt_succ_self _))
  refine ⟨evs, hevs, ?_⟩
  unfold strip_html_transcript normalizeText scanChunks tokenize
  rw [hevs]
  rfl

/-- Witness for claim C2 at a concrete document. -/
theorem claim_C2_witness :
    ∃ evs, tokenizeAux ("<p>hi</p>".data.length + 1) "<p>hi</p>".data = some evs ∧
      strip_html_transcript "<p>hi</p>" =
        String.mk (pyStrip (nlPassAux (collapseWs (timestampSub
          (feedEvents evs).flatten)))) :=
  claim_C2_total "<p>hi</p>"

/-! ### Case normalization of tag names -/

theorem char_le_iff {a b : Char} : a ≤ b ↔ a.toNat ≤ b.toNat := by
  rw [Char.le_def, UInt32.le_def, BitVec.le_def]
  rfl

theorem toNat_ofNat_of_valid {n : Nat} (h : n.isValidChar) :
    (Char.ofNat n).toNat = n := by
  rw [Char.ofNat, dif_pos h]
  rfl

theorem lowerChar_idem (c : Char) : lowerChar (lowerChar c) = lowerChar c := by
  unfold lowerChar
  by_cases h : 'A' ≤ c ∧ c ≤ 'Z'
  · rw [if_pos h]
    have hub : c.toNat ≤ 90 := char_le_iff.mp h.2
    have hval : (c.toNat + 32).isValidChar := Or.inl (by omega)
    have ht : (Char.ofNat (c.toNat + 32)).toNat = c.toNat + 32 :=
      toNat_ofNat_of_valid hval
    rw [if_neg ?_]
    intro hcon
    have h2 : (Char.ofNat (c.toNat + 32)).toNat ≤ 90 := char_le_iff.mp hcon.2
    have h1 : 65 ≤ c.toNat := char_le_iff.mp h.1
    omega
  · rw [if_neg h, if_neg h]

theorem lowerName_idem (l : List Char) : lowerName (lowerName l) = lowerName l := by
  unfold lowerName
  rw [List.map_map]
  exact List.map_congr_left (fun c _ => lowerChar_idem c)

/-- Claim C8: block-tag lookup is case-normalized: a start-tag,
self-closing-tag, or end-tag event produces exactly the same break
behaviour as its lower-cased form (the tokenizer lower-cases names
before dispatch), and whenever the lower-cased tag name is in the Block
Tag Set the event requests a logical break via `_maybe_add_newline`. -/
theorem claim_C8_case_normalized (name : List Char) (cs : List (List Char)) :
    deliver cs (.startTag name) = deliver cs (.startTag (lowerName name)) ∧
    deliver cs (.endTag name) = deliver cs (.endTag (lowerName name)) ∧
    deliver cs (.startEndTag name) = deliver cs (.startEndTag (lowerName name)) ∧
    (lowerName name ∈ blockTagsL →
      deliver cs (.startTag name) = _maybe_add_newline cs ∧
      deliver cs (.endTag name) = _maybe_add_newline cs ∧
      deliver cs (.startEndTag name) = _maybe_add_newline cs) := by
  refine ⟨?_, ?_, ?_, fun hmem => ⟨?_, ?_, ?_⟩⟩
  · simp only [deliver, lowerName_idem]
  · simp only [deliver, lowerName_idem]
  · simp only [deliver, lowerName_idem]
  · simp only [deliver, handle_starttag, if_pos hmem]
  · simp only [deliver, handle_endtag, if_pos hmem]
  · simp only [deliver, handle_startendtag, if_pos hmem]

/-- Witness for claim C8: the upper-case tag `DIV` requests a break on a
non-empty chunk list. -/
theorem claim_C8_witness :
    deliver [['x']] (.startTag "DIV".data) = _maybe_add_newline [['x']] ∧
    deliver [['x']] (.endTag "DIV".data) = _maybe_add_newline [['x']] ∧
    deliver [['x']] (.startEndTag "DIV".data) = _maybe_add_newline [['x']] :=
  (claim_C8_case_normalized "DIV".data [['x']]).2.2.2 (by decide)

/-! ### Claim theorems on concrete scenarios -/

/-- Claim C4, counterexample: on `"<p>Hello</p><p>World</p>"` the scanner
intermediate string is not `"Hello\nWorld"` — the closing `</p>` appends a
final break marker. -/
theorem claim_C4_counterexample :
    get_text "<p>Hello</p><p>World</p>" ≠ "Hello\nWorld" := by decide

/-- Claim C4, amended: on `"<p>Hello</p><p>World</p>"` the scanner
intermediate string is `"Hello\nWorld\n"` (the final block close appends a
trailing break marker), and the final normalized output is
`"Hello World"` with a single space and no internal newline. -/
theorem claim_C4_scenario :
    get_text "<p>Hello</p><p>World</p>" = "Hello\nWorld\n" ∧
    strip_html_transcript "<p>Hello</p><p>World</p>" = "Hello World" := by decide

/-- Claim C5: `strip_html_transcript` on
`"<div>0:01 Hello there 12:34:56 world</div>"` replaces both timestamp
tokens with spaces and, after collapsing and trimming, returns exactly
`"Hello there world"`. -/
theorem claim_C5_scenario :
    strip_html_transcript "<div>0:01 Hello there 12:34:56 world</div>"
      = "Hello there world" := by decide

/-- Claim C7: the timestamp substitution respects word boundaries: no
match starts right after a word character (letter, digit or underscore),
the character following any match is never a word character, and bare
occurrences are matched independently left to right while embedded
occurrences are left unchanged (`"ab12:34cd"` is untouched; both
timestamps of `"12:34 and 1:23"` are replaced). -/
theorem claim_C7_word_boundary :
    (∀ l : List Char, tsMatchAt true l = none) ∧
    (∀ (pw : Bool) (l : List Char) (n : Nat),
      tsMatchAt pw l = some n → bdryAt l n = true) ∧
    timestampSubStr "ab12:34cd" = "ab12:34cd" ∧
    timestampSubStr "12:34 and 1:23" = "  and  " :=
  ⟨tsMatchAt_true, fun _ _ _ h => tsMatchAt_bdry h, by decide, by decide⟩

/-- Witness for claim C7 at a concrete match: `"1:23"` matches with
length 4 and the position after it is a boundary. -/
theorem claim_C7_witness :
    tsMatchAt true ['1', ':', '2', '3'] = none ∧
    bdryAt ['1', ':', '2', '3'] 4 = true :=
  ⟨claim_C7_word_boundary.1 _,
   claim_C7_word_boundary.2.1 false ['1', ':', '2', '3'] 4 (by decide)⟩

/-- Claim C9: inline-only markup requests no break and trimmed chunks
concatenate with no separator: `"<span>a</span><span>b</span>"` yields
exactly `"ab"`. -/
theorem claim_C9_inline :
    strip_html_transcript "<span>a</span><span>b</span>" = "ab" := by decide

/-- Claim C10: character references in text data are decoded before
chunking: `"<p>a &amp; b</p>"` yields `"a & b"`. -/
theorem claim_C10_charref :
    strip_html_transcript "<p>a &amp; b</p>" = "a & b" := by decide


/-! ### Idempotence of timestamp removal -/

/-- The word-context flag after scanning past the characters of `a`,
starting from flag `pw`. -/
def ctxW (pw : Bool) (a : List Char) : Bool :=
  a.foldl (fun _ c => isWordC c) pw

theorem ctxW_nil (pw : Bool) : ctxW pw [] = pw := rfl

theorem ctxW_cons (pw : Bool) (c : Char) (a : List Char) :
    ctxW pw (c :: a) = ctxW (isWordC c) a := rfl

theorem ctxW_eq (pw : Bool) (a : List Char) :
    ctxW pw a = match a.getLast? with
      | none => pw
      | some x => isWordC x := by
  induction a generalizing pw with
  | nil => rfl
  | cons c a' ih =>
    rw [ctxW_cons, ih]
    cases a' with
    | nil => rfl
    | cons d a'' =>
      rw [List.getLast?_cons_cons]
      cases hgl : (d :: a'').getLast? with
      | none => exact absurd hgl (by simp)
      | some x => rfl

theorem tsSubAux_scan (fuel : Nat) : ∀ (pw : Bool) (l : List Char),
    l.length ≤ fuel →
    tsSubAux fuel pw l = l ∨
    ∃ a b n Z, l = a ++ b ∧ tsMatchAt (ctxW pw a) b = some n ∧
      tsSubAux fuel pw l = a ++ ' ' :: Z := by
  induction fuel with
  | zero => intro pw l _; left; rfl
  | succ f ih =>
    intro pw l hl
    cases l with
    | nil => left; rfl
    | cons c rest =>
      simp only [List.length_cons] at hl
      cases hm : tsMatchAt pw (c :: rest) with
      | some n =>
        right
        refine ⟨[], c :: rest, n, tsSubAux f true (List.drop (n - 1) rest),
          rfl, ?_, ?_⟩
        · rw [ctxW_nil]; exact hm
        · simp [tsSubAux, hm]
      | none =>
        rcases ih (isWordC c) rest (by omega) with heq | ⟨a, b, n, Z, hsplit, hmatch, hout⟩
        · left; simp [tsSubAux, hm, heq]
        · right
          refine ⟨c :: a, b, n, Z, by rw [List.cons_append, ← hsplit], ?_, ?_⟩
          · rw [ctxW_cons]; exact hmatch
          · simp [tsSubAux, hm, hout]

theorem tsMatchAt_false_def (l : List Char) :
    tsMatchAt false l =
      (if isDigitAt l 0 && isDigitAt l 1 && isColonAt l 2
          && isDigitAt l 3 && isDigitAt l 4 then
        if isColonAt l 5 && isDigitAt l 6 && isDigitAt l 7 && bdryAt l 8 then some 8
        else if bdryAt l 5 then some 5 else none
      else if isDigitAt l 0 && isColonAt l 1 && isDigitAt l 2 && isDigitAt l 3 then
        if isColonAt l 4 && isDigitAt l 5 && isDigitAt l 6 && bdryAt l 7 then some 7
        else if bdryAt l 4 then some 4 else none
      else none) := by
  simp [tsMatchAt]

/-- If a match of length `m` fires and another string agrees on the
first `m + 1` characters, some match fires on the other string too. -/
theorem tsMatchAt_some_of_agree {l l' : List Char} {m : Nat}
    (hm : tsMatchAt false l = some m)
    (hagree : ∀ i, i ≤ m → l[i]? = l'[i]?) :
    ∃ m', tsMatchAt false l' = some m' := by
  have hD : ∀ i, i ≤ m → isDigitAt l' i = isDigitAt l i := fun i hi => by
    unfold isDigitAt; rw [hagree i hi]
  have hC : ∀ i, i ≤ m → isColonAt l' i = isColonAt l i := fun i hi => by
    unfold isColonAt; rw [hagree i hi]
  have hB : ∀ i, i ≤ m → bdryAt l' i = bdryAt l i := fun i hi => by
    unfold bdryAt; rw [hagree i hi]
  rw [tsMatchAt_false_def] at hm
  rw [tsMatchAt_false_def]
  split_ifs at hm with c1 c2 c3 c4 c5 c6
  · -- shape 8
    injection hm with hm8; subst hm8
    rw [hD 0 (by omega), hD 1 (by omega), hC 2 (by omega), hD 3 (by omega),
      hD 4 (by omega), hC 5 (by omega), hD 6 (by omega), hD 7 (by omega),
      hB 8 (by omega), if_pos c1, if_pos c2]
    exact ⟨8, rfl⟩
  · -- shape 5
    injection hm with hm5; subst hm5
    rw [hD 0 (by omega), hD 1 (by omega), hC 2 (by omega), hD 3 (by omega),
      hD 4 (by omega), hC 5 (by omega), hB 5 (by omega), if_pos c1]
    by_cases hS : (isColonAt l 5 && isDigitAt l' 6 && isDigitAt l' 7
        && bdryAt l' 8) = true
    · exact ⟨8, by rw [if_pos hS]⟩
    · exact ⟨5, by rw [if_neg hS, if_pos c3]⟩
  · -- shape 7
    injection hm with hm7; subst hm7
    rw [hD 0 (by omega), hD 1 (by omega), hC 2 (by omega), hD 3 (by omega),
      hD 4 (by omega), hC 1 (by omega), hD 2 (by omega), hC 4 (by omega),
      hD 5 (by omega), hD 6 (by omega), hB 7 (by omega),
      if_neg ?_, if_pos c4, if_pos c5]
    · exact ⟨7, rfl⟩
    · exact fun hcon => c1 hcon
  · -- shape 4
    injection hm with hm4; subst hm4
    rw [hD 0 (by omega), hD 1 (by omega), hC 2 (by omega), hD 3 (by omega),
      hD 4 (by omega), hC 1 (by omega), hD 2 (by omega), hC 4 (by omega),
      hB 4 (by omega), if_neg ?_, if_pos c4]
    · by_cases hS : (isColonAt l 4 && isDigitAt l' 5 && isDigitAt l' 6
          && bdryAt l' 7) = true
      · exact ⟨7, by rw [if_pos hS]⟩
      · exact ⟨4, by rw [if_neg hS, if_pos c6]⟩
    · exact fun hcon => c1 hcon

/-- The substitution never creates a match: if no match fires at a
position, none fires there after the remainder of the string has been
rewritten by the scan. -/
theorem ts_no_new (fuel : Nat) (c : Char) (rest : List Char)
    (hf : rest.length ≤ fuel)
    (N : tsMatchAt false (c :: rest) = none) :
    tsMatchAt false (c :: tsSubAux fuel true rest) = none := by
  rcases tsSubAux_scan fuel true rest hf with heq | ⟨a, b, n, Z, hsplit, hmatch, hout⟩
  · rw [heq]; exact N
  · rw [hout]
    cases hx : tsMatchAt false (c :: (a ++ ' ' :: Z)) with
    | none => rfl
    | some m =>
      exfalso
      have hctx : ctxW true a = false := tsMatchAt_pw hmatch
      obtain ⟨w, hw, hww⟩ : ∃ w, a.getLast? = some w ∧ isWordC w = false := by
        rw [ctxW_eq] at hctx
        cases hgl : a.getLast? with
        | none => rw [hgl] at hctx; exact absurd hctx (by simp)
        | some x => rw [hgl] at hctx; exact ⟨x, rfl, hctx⟩
      have hane : a ≠ [] := by intro he; rw [he] at hw; simp at hw
      have hk1 : 1 ≤ a.length := by
        cases a with
        | nil => exact absurd rfl hane
        | cons u v => simp
      have EQi : ∀ i, i ≤ a.length →
          (c :: (a ++ ' ' :: Z))[i]? = (c :: (a ++ b))[i]? := by
        intro i hi
        cases i with
        | zero => simp
        | succ j =>
          have hj : j < a.length := by omega
          rw [List.getElem?_cons_succ, List.getElem?_cons_succ,
            List.getElem?_append_left hj, List.getElem?_append_left hj]
      have SP : (c :: (a ++ ' ' :: Z))[a.length + 1]? = some ' ' := by
        rw [List.getElem?_cons_succ, List.getElem?_append_right (Nat.le_refl _)]
        simp
      have HK : (c :: (a ++ ' ' :: Z))[a.length]? = some w := by
        obtain ⟨j, hj⟩ : ∃ j, a.length = j + 1 := ⟨a.length - 1, by omega⟩
        rw [List.getLast?_eq_getElem?] at hw
        rw [hj]
        rw [List.getElem?_cons_succ, List.getElem?_append_left (by omega)]
        rw [hj] at hw
        simpa using hw
      rcases Nat.lt_trichotomy (a.length + 1) m with hlt | heqm | hgt
      · have hin := tsMatchAt_inner hx (a.length + 1) hlt
        unfold isDigitAt isColonAt at hin
        rw [SP] at hin
        simp [isDigitC] at hin
      · have hld := tsMatchAt_last_digit hx
        have hidx : m - 1 = a.length := by omega
        rw [hidx] at hld
        unfold isDigitAt at hld
        rw [HK] at hld
        have := digit_isWord hld
        rw [hww] at this
        exact absurd this (by simp)
      · have hagree : ∀ i, i ≤ m →
            (c :: (a ++ ' ' :: Z))[i]? = (c :: (a ++ b))[i]? :=
          fun i hi => EQi i (by omega)
        obtain ⟨m', hm'⟩ := tsMatchAt_some_of_agree hx hagree
        rw [hsplit] at N
        rw [N] at hm'
        exact absurd hm' (by simp)

theorem tsSubAux_head (fuel : Nat) (pw : Bool) (l : List Char) :
    (tsSubAux fuel pw l).head? = l.head? ∨
    (tsSubAux fuel pw l).head? = some ' ' := by
  cases fuel with
  | zero => left; rfl
  | succ f =>
    cases l with
    | nil => left; rfl
    | cons c rest =>
      cases hm : tsMatchAt pw (c :: rest) with
      | some n => right; simp [tsSubAux, hm]
      | none => left; simp [tsSubAux, hm]

theorem noTs_pw_irrel (pw pw' : Bool) {l : List Char}
    (hhead : ∀ x, l.head? = some x → isDigitC x = false) :
    noTs pw l = noTs pw' l := by
  cases l with
  | nil => rfl
  | cons c r =>
    have hd : isDigitC c = false := hhead c rfl
    have h0 : isDigitAt (c :: r) 0 = false := by simp [isDigitAt, hd]
    simp [noTs, tsMatchAt_not_digit pw h0, tsMatchAt_not_digit pw' h0]

theorem noTs_tsSubAux (fuel : Nat) : ∀ (pw : Bool) (l : List Char),
    l.length ≤ fuel → noTs pw (tsSubAux fuel pw l) = true := by
  induction fuel with
  | zero =>
    intro pw l hl
    cases l with
    | nil => rfl
    | cons c r => simp at hl
  | succ f ih =>
    intro pw l hl
    cases l with
    | nil => rfl
    | cons c rest =>
      simp only [List.length_cons] at hl
      cases hm : tsMatchAt pw (c :: rest) with
      | some n =>
        have hnval := tsMatchAt_n_val hm
        have hout : tsSubAux (f + 1) pw (c :: rest)
            = ' ' :: tsSubAux f true (List.drop (n - 1) rest) := by
          simp [tsSubAux, hm]
        rw [hout]
        have hlen : (List.drop (n - 1) rest).length ≤ f := by
          simp only [List.length_drop]
          omega
        have h1 : tsMatchAt pw (' ' :: tsSubAux f true (List.drop (n - 1) rest))
            = none :=
          tsMatchAt_not_digit pw (by simp [isDigitAt, isDigitC])
        have h2 := ih true (List.drop (n - 1) rest) hlen
        have hbd : bdryAt (c :: rest) n = true := tsMatchAt_bdry hm
        have hhead : ∀ x, (tsSubAux f true (List.drop (n - 1) rest)).head? = some x
            → isDigitC x = false := by
          intro x hx
          rcases tsSubAux_head f true (List.drop (n - 1) rest) with hh | hh
          · rw [hh] at hx
            have hdn : List.drop (n - 1) rest = List.drop n (c :: rest) := by
              rcases hnval with rfl | rfl | rfl | rfl <;> rfl
            rw [hdn, List.head?_eq_getElem?, List.getElem?_drop, Nat.add_zero] at hx
            unfold bdryAt at hbd
            rw [hx] at hbd
            simp only [Bool.not_eq_true'] at hbd
            cases hdig : isDigitC x with
            | false => rfl
            | true => exact absurd (digit_isWord hdig) (by simp [hbd])
          · rw [hh] at hx
            injection hx with hx'
            rw [← hx']
            rfl
        have h2' : noTs false (tsSubAux f true (List.drop (n - 1) rest)) = true := by
          rw [noTs_pw_irrel false true hhead]
          exact h2
        simp only [noTs, h1, Option.isNone_none, Bool.true_and]
        have hws : isWordC ' ' = false := by rfl
        rw [hws]
        exact h2'
      | none =>
        have hout : tsSubAux (f + 1) pw (c :: rest)
            = c :: tsSubAux f (isWordC c) rest := by
          simp [tsSubAux, hm]
        rw [hout]
        have h2 := ih (isWordC c) rest (by omega)
        have h1 : tsMatchAt pw (c :: tsSubAux f (isWordC c) rest) = none := by
          rcases Bool.eq_false_or_eq_true pw with hpw | hpw
          · subst hpw
            exact tsMatchAt_true _
          · subst hpw
            cases hdig : isDigitC c with
            | false =>
              exact tsMatchAt_not_digit (l := c :: tsSubAux f (isWordC c) rest)
                false (by simp [isDigitAt, hdig])
            | true =>
              rw [digit_isWord hdig]
              exact ts_no_new f c rest (by omega) hm
        simp only [noTs, h1, Option.isNone_none, Bool.true_and]
        exact h2

theorem tsSubAux_of_noTs (fuel : Nat) : ∀ (pw : Bool) (l : List Char),
    l.length ≤ fuel → noTs pw l = true → tsSubAux fuel pw l = l := by
  induction fuel with
  | zero => intro pw l _ _; rfl
  | succ f ih =>
    intro pw l hl hno
    cases l with
    | nil => rfl
    | cons c rest =>
      simp only [List.length_cons] at hl
      simp only [noTs, Bool.and_eq_true, Option.isNone_iff_eq_none] at hno
      rw [tsSubAux.eq_def]
      simp only [hno.1]
      rw [ih (isWordC c) rest (by omega) hno.2]

/-- Claim C6: timestamp removal is idempotent: applying the substitution
twice yields the same result as applying it once, and the replacement
never creates a new timestamp-shaped substring (the output carries no
match at any position). -/
theorem claim_C6_idempotent (s : String) :
    timestampSubStr (timestampSubStr s) = timestampSubStr s ∧
    noTs false (timestampSub s.data) = true := by
  have hno : noTs false (timestampSub s.data) = true :=
    noTs_tsSubAux s.data.length false s.data (Nat.le_refl _)
  refine ⟨?_, hno⟩
  have hfix : timestampSub (timestampSub s.data) = timestampSub s.data :=
    tsSubAux_of_noTs (timestampSub s.data).length false (timestampSub s.data)
      (Nat.le_refl _) hno
  exact congrArg String.mk hfix
end HtmlToText
